import Mathlib

/-!
Verification of the record codec and merge engine of YCSB-cpp
(src/utils/fields.h and src/utils/serialization.h).

Byte buffers are modelled as `List Nat` (one `Nat` per byte).  All 32-bit
stores go through `le32`, which truncates to the low 32 bits exactly as the
C++ `uint32_t` casts and stores do; reads of a 4-byte little-endian word go
through `read4`.  Pointer arithmetic (`p += k`) is modelled by `List.drop`
on the remaining bytes.

The file is laid out with all definitions first, followed by all theorems.
-/

namespace ycsbc

/-- Field of a record: a (name, value) pair of byte strings.
Models ycsbc::DB::Field from src/core/db.h. -/
abbrev F := List Nat × List Nat

/-- Little-endian encoding of the low 32 bits of a natural number, as four
bytes.  Models the C++ store of a `uint32_t` through
reinterpret_cast on a little-endian target. -/
def le32 (n : Nat) : List Nat :=
  [n % 256, n / 256 % 256, n / 65536 % 256, n / 16777216 % 256]

/-- Read of a 4-byte little-endian word at the start of a byte sequence.
Out-of-range bytes read as 0; bounds are checked separately where the
source checks them. -/
def read4 (bs : List Nat) : Nat :=
  bs.getD 0 0 + 256 * bs.getD 1 0 + 65536 * bs.getD 2 0 + 16777216 * bs.getD 3 0

/-!
Embedding of src/utils/fields.h.

A `Fields` buffer is the byte sequence
`[count:4][name_size:4][value_size:4][name][value]...` (one size pair per
entry, both sizes before both byte runs).  `ReadonlyFields` operations are
functions of the raw bytes.
-/

/-- Byte encoding of one field entry in the fields.h format:
4-byte name size, 4-byte value size, name bytes, value bytes
(layout written by Fields::push and Fields::append_field). -/
def entryBytes (f : F) : List Nat :=
  le32 f.1.length ++ (le32 f.2.length ++ (f.1 ++ f.2))

/-- Concatenated byte encoding of a list of field entries. -/
def entriesBytes : List F → List Nat
  | [] => []
  | f :: fs => entryBytes f ++ entriesBytes fs

/-- Normal form of a fields.h record buffer holding exactly the entries
`fs`: the 4-byte count header followed by the encoded entries. -/
def recBytes (fs : List F) : List Nat :=
  le32 fs.length ++ entriesBytes fs

/-- Overwrite of the 4-byte count header of a buffer (the store
`*reinterpret_cast<uint32_t*>(&buffer[0]) = c`). -/
def setCount (c : Nat) (buf : List Nat) : List Nat :=
  le32 c ++ buf.drop 4

/-- Models the Fields default constructor: a buffer holding only a zero
count header. -/
def Fields.emptyBuffer : List Nat := le32 0

/-- Models the static Fields::append_field: append one entry (two 4-byte
sizes, truncated to uint32, then the name and value bytes) at the end of a
buffer.  Fields::push appends through exactly the same layout. -/
def Fields.append_field (buffer : List Nat) (name value : List Nat) : List Nat :=
  buffer ++ entryBytes (name, value)

/-- Models Fields::push: append the entry, then increment the uint32 count
stored in the first four bytes of the buffer (wrapping at 2^32). -/
def Fields.push (buf : List Nat) (name value : List Nat) : List Nat :=
  let ap := Fields.append_field buf name value
  setCount ((read4 ap + 1) % 4294967296) ap

/-- Models Fields::clear: resize the buffer to its first four bytes and
store a zero count there. -/
def Fields.clear (buf : List Nat) : List Nat :=
  setCount 0 (buf.take 4)

/-- Models ReadonlyFields::size: the uint32 count header, or 0 when the
buffer is shorter than four bytes. -/
def ReadonlyFields.size (buf : List Nat) : Nat :=
  if buf.length < 4 then 0 else read4 buf

/-- Fuelled loop of ReadonlyFields::iterator: starting from the bytes that
remain after the current pointer, read the two 4-byte sizes, slice the name
and the value, and advance by `8 + name_size + value_size`.  The loop stops
when the pointer reaches the end of the buffer.  The fuel argument only
drives the recursion; `iterFields` instantiates it with the length of the
byte sequence, which is always sufficient since every step consumes at
least eight bytes. -/
def iterFieldsF : Nat → List Nat → List F
  | 0, _ => []
  | _ + 1, [] => []
  | fuel + 1, b :: bs =>
    let all := b :: bs
    let ns := read4 all
    let vs := read4 (all.drop 4)
    ((all.drop 8).take ns, ((all.drop 8).drop ns).take vs) ::
      iterFieldsF fuel (((all.drop 8).drop ns).drop vs)

/-- Iteration of the ReadonlyFields entries reachable from a pointer
position to the end of the buffer. -/
def iterFields (bs : List Nat) : List F := iterFieldsF bs.length bs

/-- Decoding of a whole fields.h record through its iterator: begin() skips
the 4-byte header (and yields the empty iteration when at most four bytes
are present), end() is the end of the buffer. -/
def decodeRecord (buf : List Nat) : List F := iterFields (buf.drop 4)

/-- Models Fields::update: copy the primary buffer, then append, for each
entry of the update record (iterated through its own begin()/end()), the
entries whose name matches no name of the primary buffer, counting the
appended entries on top of size(); finally store the new count in the
header of the copy and return it. -/
def Fields.update (buf toupdate : List Nat) : List Nat :=
  let st := (decodeRecord toupdate).foldl
    (fun st f =>
      if f.1 ∈ (decodeRecord buf).map Prod.fst then st
      else (Fields.append_field st.1 f.1 f.2, (st.2 + 1) % 4294967296))
    (buf, ReadonlyFields.size buf)
  setCount st.2 st.1

/-- Models ReadonlyFields::filter: clear the destination, return it
unchanged when the wanted set is empty, otherwise push every entry of the
source whose name is a member of the wanted set, in source order.  The
std::unordered_set argument is modelled as a list used only through
membership. -/
def ReadonlyFields.filter (buf : List Nat) (wanted : List (List Nat)) : List Nat :=
  if wanted = [] then Fields.emptyBuffer
  else (decodeRecord buf).foldl
    (fun d f => if f.1 ∈ wanted then Fields.push d f.1 f.2 else d)
    Fields.emptyBuffer

/-- Buffer built by pushing each field of a list in order into a freshly
constructed Fields object. -/
def buildFields (fs : List F) : List Nat :=
  fs.foldl (fun b f => Fields.push b f.1 f.2) Fields.emptyBuffer

/-- A field entry is good when both its byte-string lengths fit in a
uint32, so that the stored size prefixes are exact. -/
def goodF (f : F) : Prop := f.1.length < 4294967296 ∧ f.2.length < 4294967296

/-- All entries of a record are good. -/
def good (fs : List F) : Prop := ∀ f ∈ fs, goodF f

instance (f : F) : Decidable (goodF f) :=
  (inferInstance : Decidable (f.1.length < 4294967296 ∧ f.2.length < 4294967296))

instance (fs : List F) : Decidable (good fs) :=
  (inferInstance : Decidable (∀ f ∈ fs, goodF f))

/-- Names of the entries of a record, in encoding order. -/
def namesOf (fs : List F) : List (List Nat) := fs.map Prod.fst

/-- Entries of an update record that Fields::update appends: those whose
name is absent from the base record. -/
def newEntries (B U : List F) : List F :=
  U.filter (fun f => decide (f.1 ∉ namesOf B))

/-!
Embedding of src/utils/serialization.h.

The row format written by Serialization::SerializeRowImpl interleaves each
length with its bytes: `[field_count:4][name_len:4][name][value_len:4]
[value]...` (unlike the fields.h layout, which puts both sizes before both
byte runs).

The C++ deserializers guard the buffer only with debug assertions
(`assert(p < lim)` and the like) and then read raw memory; with a buffer
shorter than the header promises, the debug build aborts on the assertion
and the release build reads past the end of the buffer.  Both outcomes are
modelled by the explicit error value `DecodeErr.oobRead`, produced exactly
where the next raw read would leave the buffer.  The code has no
recoverable decode-error path at all.
-/

/-- Marker for a read that leaves the bounds of the input buffer (a failed
debug assertion, or undefined behaviour in a release build). -/
inductive DecodeErr where
  | oobRead
deriving DecidableEq, Repr

/-- Bounds-checked read of a 4-byte little-endian word at the start of the
remaining bytes. -/
def read4Chk (bs : List Nat) : Option Nat :=
  if 4 ≤ bs.length then some (read4 bs) else none

/-- Bounds-checked read of `n` raw bytes at the start of the remaining
bytes (the C++ `buffer.assign(p, len)`). -/
def takeChk (bs : List Nat) (n : Nat) : Option (List Nat) :=
  if n ≤ bs.length then some (bs.take n) else none

/-- Loop body of Serialization::DeserializeRowImpl: for each of the
declared `field_count` entries read a 4-byte name length, the name bytes, a
4-byte value length and the value bytes, advancing the pointer (modelled by
List.drop) after every read. -/
def deserializeRowLoop : Nat → List Nat → Except DecodeErr (List F)
  | 0, _ => .ok []
  | k + 1, bs =>
    match read4Chk bs with
    | none => .error .oobRead
    | some nl =>
      match takeChk (bs.drop 4) nl with
      | none => .error .oobRead
      | some name =>
        match read4Chk ((bs.drop 4).drop nl) with
        | none => .error .oobRead
        | some vl =>
          match takeChk (((bs.drop 4).drop nl).drop 4) vl with
          | none => .error .oobRead
          | some value =>
            match deserializeRowLoop k ((((bs.drop 4).drop nl).drop 4).drop vl) with
            | .error e => .error e
            | .ok rest => .ok ((name, value) :: rest)

/-- Models Serialization::DeserializeRowImpl: read the 4-byte field count,
decode that many entries, and report, next to the decoded fields, the truth
value of the final debug assertion
`values.size() == expected_field_count` (checked only when
`expected_field_count > 0`). -/
def DeserializeRowImpl (bs : List Nat) (expected : Nat) :
    Except DecodeErr (List F × Bool) :=
  match read4Chk bs with
  | none => .error .oobRead
  | some cnt =>
    match deserializeRowLoop cnt (bs.drop 4) with
    | .error e => .error e
    | .ok vs => .ok (vs, expected == 0 || vs.length == expected)

/-- Byte encoding of one field in the serialization.h row format: 4-byte
name length (truncated to uint32), name bytes, 4-byte value length, value
bytes. -/
def ser1 (f : F) : List Nat :=
  le32 f.1.length ++ (f.1 ++ (le32 f.2.length ++ f.2))

/-- Concatenated serialization.h encoding of a list of fields. -/
def serBytes : List F → List Nat
  | [] => []
  | f :: fs => ser1 f ++ serBytes fs

/-- Models Serialization::SerializeRowImpl: the 4-byte field count followed
by each field in the interleaved length/bytes layout. -/
def SerializeRow (values : List F) : List Nat :=
  le32 values.length ++ serBytes values

/-- Single forward pass of DeserializeRowFilterImpl over the decoded
fields: a field is emitted exactly when its name equals the first
not-yet-matched name of the ordered request list, which is then consumed;
any other field is skipped and never revisited. -/
def spMatch : List F → List (List Nat) → List F
  | _, [] => []
  | [], _ :: _ => []
  | f :: fs, w :: ws =>
    if f.1 = w then f :: spMatch fs ws else spMatch fs (w :: ws)

/-- Loop body of Serialization::DeserializeRowFilterImpl: the loop runs
while entries remain (up to the declared count) and the request-list
iterator has not reached its end; an entry is pushed and the iterator
advanced only when the entry name equals the current requested name. -/
def deserializeFilterLoop : Nat → List Nat → List (List Nat) → Except DecodeErr (List F)
  | 0, _, _ => .ok []
  | _ + 1, _, [] => .ok []
  | k + 1, bs, w :: ws =>
    match read4Chk bs with
    | none => .error .oobRead
    | some nl =>
      match takeChk (bs.drop 4) nl with
      | none => .error .oobRead
      | some name =>
        match read4Chk ((bs.drop 4).drop nl) with
        | none => .error .oobRead
        | some vl =>
          match takeChk (((bs.drop 4).drop nl).drop 4) vl with
          | none => .error .oobRead
          | some value =>
            let rest := (((bs.drop 4).drop nl).drop 4).drop vl
            if name = w then
              match deserializeFilterLoop k rest ws with
              | .error e => .error e
              | .ok r => .ok ((name, value) :: r)
            else
              deserializeFilterLoop k rest (w :: ws)

/-- Models Serialization::DeserializeRowFilterImpl: read the count, run the
single-pass filtered decode, and report, next to the decoded fields, the
truth value of the final debug assertion
`values.size() == fields.size()`. -/
def DeserializeRowFilterImpl (bs : List Nat) (wanted : List (List Nat)) :
    Except DecodeErr (List F × Bool) :=
  match read4Chk bs with
  | none => .error .oobRead
  | some cnt =>
    match deserializeFilterLoop cnt (bs.drop 4) wanted with
    | .error e => .error e
    | .ok vs => .ok (vs, vs.length == wanted.length)

/-- Replacement of the value of the first field with the given name (inner
loop of Serialization::MergeUpdate, which breaks after the first match). -/
def overwriteFirst : List F → List Nat → List Nat → List F
  | [], _, _ => []
  | f :: fs, n, v => if f.1 = n then (f.1, v) :: fs else f :: overwriteFirst fs n v

/-- Models Serialization::MergeUpdate: for each update field overwrite the
value of the first current field with the same name.  The Bool is the
conjunction of the per-field debug assertions `assert(found)`; when it is
false some update field matched nothing and was silently dropped (release
behaviour). -/
def MergeUpdate (current_values update_values : List F) : List F × Bool :=
  update_values.foldl
    (fun st nf =>
      (overwriteFirst st.1 nf.1 nf.2,
        st.2 && (st.1.map Prod.fst).contains nf.1))
    (current_values, true)

/-!
State-level model of a Fields object, for the frame property of
Fields::update.  A Fields object owns two byte buffers: the primary
buffer_ holding its own record, and the scratch update_buffer_ reused
across update calls.
-/

/-- The two owned buffers of a Fields object (fields.h lines 269 and
270). -/
structure FieldsObj where
  primary : List Nat
  scratch : List Nat

/-- Models a call of Fields::update on an object.  The method first makes
the scratch buffer an exact byte copy of the primary buffer (by assign when
the scratch is empty, by resize to the primary size plus memcpy of the
whole primary otherwise, so the previous scratch content never survives),
then appends to the scratch the update entries whose names are absent from
the primary, stores the new count in the scratch header, and returns a
view of the scratch.  The primary buffer is never written. -/
def FieldsObj.update (self : FieldsObj) (toupdate : List Nat) : FieldsObj × List Nat :=
  let result := Fields.update self.primary toupdate
  ({ self with scratch := result }, result)

/-!
Model of an arbitrary client interaction with a Fields buffer through
push and clear, for the header/count invariant.
-/

/-- One mutating operation on a Fields buffer. -/
inductive FieldsOp where
  | push : List Nat → List Nat → FieldsOp
  | clear : FieldsOp

/-- Application of one operation to the byte buffer. -/
def applyOp (buf : List Nat) : FieldsOp → List Nat
  | .push n v => Fields.push buf n v
  | .clear => Fields.clear buf

/-- Byte buffer after a sequence of operations on a freshly constructed
Fields object. -/
def applyOps (ops : List FieldsOp) : List Nat :=
  ops.foldl applyOp Fields.emptyBuffer

/-- Abstract record contents after a sequence of operations, starting from
the given contents. -/
def opsRecordFrom (fs : List F) : List FieldsOp → List F
  | [] => fs
  | .push n v :: tl => opsRecordFrom (fs ++ [(n, v)]) tl
  | .clear :: tl => opsRecordFrom [] tl

/-- Abstract record contents after a sequence of operations on a fresh
buffer. -/
def opsRecord (ops : List FieldsOp) : List F := opsRecordFrom [] ops

/-- An operation is good when the byte strings it pushes have uint32
lengths. -/
def goodOp : FieldsOp → Prop
  | .push n v => n.length < 4294967296 ∧ v.length < 4294967296
  | .clear => True

instance (op : FieldsOp) : Decidable (goodOp op) :=
  match op with
  | .push n v =>
    (inferInstance : Decidable (n.length < 4294967296 ∧ v.length < 4294967296))
  | .clear => (inferInstance : Decidable True)

/-!
Theorems.  First the byte-level laws of the encodings, then the
characterizations of the operations, then one theorem per claim.
-/

@[simp] theorem length_le32 (n : Nat) : (le32 n).length = 4 := rfl

theorem le32_mod (n : Nat) : le32 (n % 4294967296) = le32 n := by
  simp only [le32, List.cons.injEq, and_true]
  refine ⟨?_, ?_, ?_, ?_⟩ <;> omega

@[simp] theorem read4_le32 (n : Nat) (rest : List Nat) :
    read4 (le32 n ++ rest) = n % 4294967296 := by
  simp only [le32, read4, List.cons_append, List.nil_append,
    List.getD_cons_zero, List.getD_cons_succ]
  omega

@[simp] theorem drop4_le32 (n : Nat) (rest : List Nat) :
    (le32 n ++ rest).drop 4 = rest := by
  simp [le32]

theorem iterFieldsF_congr :
    ∀ f₁ f₂ bs, bs.length ≤ f₁ → bs.length ≤ f₂ →
      iterFieldsF f₁ bs = iterFieldsF f₂ bs := by
  intro f₁
  induction f₁ with
  | zero =>
    intro f₂ bs h1 _
    have hbs : bs = [] := List.eq_nil_of_length_eq_zero (Nat.le_zero.mp h1)
    subst hbs
    cases f₂ <;> rfl
  | succ a ih =>
    intro f₂ bs h1 h2
    cases bs with
    | nil => cases f₂ <;> rfl
    | cons b tl =>
      cases f₂ with
      | zero => simp at h2
      | succ c =>
        simp only [iterFieldsF]
        refine congrArg _ (ih c _ ?_ ?_) <;>
          simp only [List.length_drop, List.length_cons] at h1 h2 ⊢ <;> omega

theorem iterFields_ne_nil (bs : List Nat) (h : bs ≠ []) :
    iterFields bs =
      ((bs.drop 8).take (read4 bs),
        ((bs.drop 8).drop (read4 bs)).take (read4 (bs.drop 4))) ::
      iterFields (((bs.drop 8).drop (read4 bs)).drop (read4 (bs.drop 4))) := by
  obtain ⟨b, tl, rfl⟩ := List.exists_cons_of_ne_nil h
  show iterFieldsF (b :: tl).length (b :: tl) = _
  rw [List.length_cons, iterFieldsF]
  refine congrArg _ (iterFieldsF_congr _ _ _ ?_ le_rfl)
  simp only [List.length_drop, List.length_cons]
  omega

@[simp] theorem iterFields_nil : iterFields [] = [] := rfl

theorem entryBytes_ne_nil (f : F) (rest : List Nat) : entryBytes f ++ rest ≠ [] := by
  simp [entryBytes, le32]

theorem iterFields_entry (n v : List Nat) (rest : List Nat)
    (hn : n.length < 4294967296) (hv : v.length < 4294967296) :
    iterFields (entryBytes (n, v) ++ rest) = (n, v) :: iterFields rest := by
  have hbs := iterFields_ne_nil (entryBytes (n, v) ++ rest) (entryBytes_ne_nil _ _)
  have e1 : entryBytes (n, v) ++ rest =
      le32 n.length ++ (le32 v.length ++ (n ++ (v ++ rest))) := by
    simp [entryBytes, List.append_assoc]
  have hr4 : read4 (entryBytes (n, v) ++ rest) = n.length := by
    rw [e1, read4_le32, Nat.mod_eq_of_lt hn]
  have hd4 : (entryBytes (n, v) ++ rest).drop 4 =
      le32 v.length ++ (n ++ (v ++ rest)) := by
    rw [e1, drop4_le32]
  have hr4' : read4 ((entryBytes (n, v) ++ rest).drop 4) = v.length := by
    rw [hd4, read4_le32, Nat.mod_eq_of_lt hv]
  have hd8 : (entryBytes (n, v) ++ rest).drop 8 = n ++ (v ++ rest) := by
    rw [e1]
    rw [show (8 : Nat) = 4 + 4 by rfl, ← List.drop_drop, drop4_le32, drop4_le32]
  rw [hbs, hr4, hr4', hd8, List.take_left, List.drop_left, List.take_left,
    List.drop_left]

theorem iterFields_entries (fs : List F) (h : good fs) :
    iterFields (entriesBytes fs) = fs := by
  induction fs with
  | nil => rfl
  | cons f tl ih =>
    obtain ⟨n, v⟩ := f
    have hf := h (n, v) (List.mem_cons_self _ _)
    rw [entriesBytes, iterFields_entry n v _ hf.1 hf.2,
      ih (fun g hg => h g (List.mem_cons_of_mem _ hg))]

theorem decodeRecord_recBytes (fs : List F) (h : good fs) :
    decodeRecord (recBytes fs) = fs := by
  rw [decodeRecord, recBytes, drop4_le32, iterFields_entries fs h]

@[simp] theorem length_entryBytes (f : F) :
    (entryBytes f).length = 8 + f.1.length + f.2.length := by
  simp [entryBytes]
  omega

theorem read4_recBytes (fs : List F) :
    read4 (recBytes fs) = fs.length % 4294967296 := by
  rw [recBytes, read4_le32]

theorem size_recBytes (fs : List F) (h : fs.length < 4294967296) :
    ReadonlyFields.size (recBytes fs) = fs.length := by
  rw [ReadonlyFields.size, if_neg, read4_recBytes, Nat.mod_eq_of_lt h]
  simp [recBytes]

@[simp] theorem entriesBytes_append (xs ys : List F) :
    entriesBytes (xs ++ ys) = entriesBytes xs ++ entriesBytes ys := by
  induction xs with
  | nil => rfl
  | cons x tl ih => simp [entriesBytes, ih]

theorem push_recBytes (fs : List F) (n v : List Nat) :
    Fields.push (recBytes fs) n v = recBytes (fs ++ [(n, v)]) := by
  have hap : Fields.append_field (recBytes fs) n v =
      le32 fs.length ++ (entriesBytes fs ++ entryBytes (n, v)) := by
    simp [Fields.append_field, recBytes, List.append_assoc]
  rw [Fields.push, hap]
  show setCount ((read4 _ + 1) % 4294967296) _ = _
  rw [read4_le32, setCount, drop4_le32]
  have : le32 ((fs.length % 4294967296 + 1) % 4294967296) =
      le32 (fs ++ [(n, v)]).length := by
    rw [show (fs ++ [(n, v)]).length = fs.length + 1 by simp]
    rw [← le32_mod (fs.length + 1)]
    congr 1
    omega
  rw [this, recBytes, entriesBytes_append]
  simp [entriesBytes]

theorem clear_eq (buf : List Nat) : Fields.clear buf = Fields.emptyBuffer := by
  rw [Fields.clear, setCount, Fields.emptyBuffer, List.drop_eq_nil_of_le, List.append_nil]
  exact le_trans (List.length_take_le _ _) le_rfl

theorem emptyBuffer_eq : Fields.emptyBuffer = recBytes [] := rfl

theorem buildFields_from (fs : List F) :
    ∀ acc, fs.foldl (fun b f => Fields.push b f.1 f.2) (recBytes acc) =
      recBytes (acc ++ fs) := by
  induction fs with
  | nil => intro acc; simp
  | cons f tl ih =>
    intro acc
    rw [List.foldl_cons, push_recBytes, ih (acc ++ [f])]
    simp

theorem buildFields_eq (fs : List F) : buildFields fs = recBytes fs := by
  have := buildFields_from fs []
  simpa [buildFields, emptyBuffer_eq] using this

theorem update_fold (names : List (List Nat)) :
    ∀ (L : List F) (b0 : List Nat) (c0 : Nat),
      c0 + (L.filter (fun f => decide (f.1 ∉ names))).length < 4294967296 →
      L.foldl
        (fun st f =>
          if f.1 ∈ names then st
          else (Fields.append_field st.1 f.1 f.2, (st.2 + 1) % 4294967296))
        (b0, c0)
      = (b0 ++ entriesBytes (L.filter (fun f => decide (f.1 ∉ names))),
          c0 + (L.filter (fun f => decide (f.1 ∉ names))).length) := by
  intro L
  induction L with
  | nil => intro b0 c0 _; simp [entriesBytes]
  | cons f tl ih =>
    intro b0 c0 hc
    by_cases hp : f.1 ∈ names
    · rw [List.foldl_cons, if_pos hp]
      have hfil : (f :: tl).filter (fun f => decide (f.1 ∉ names)) =
          tl.filter (fun f => decide (f.1 ∉ names)) := by
        simp [List.filter_cons, hp]
      rw [hfil] at hc ⊢
      exact ih b0 c0 hc
    · rw [List.foldl_cons, if_neg hp]
      have hfil : (f :: tl).filter (fun f => decide (f.1 ∉ names)) =
          f :: tl.filter (fun f => decide (f.1 ∉ names)) := by
        simp [List.filter_cons, hp]
      rw [hfil] at hc ⊢
      have hc1 : (c0 + 1) % 4294967296 = c0 + 1 := by
        apply Nat.mod_eq_of_lt
        simp only [List.length_cons] at hc
        omega
      rw [hc1]
      have := ih (Fields.append_field b0 f.1 f.2) (c0 + 1)
        (by simp only [List.length_cons] at hc; omega)
      rw [this, Fields.append_field]
      simp only [Prod.mk.injEq]
      refine ⟨by simp [entriesBytes, List.append_assoc], ?_⟩
      simp only [List.length_cons]
      omega

theorem update_char (B U : List F) (hB : good B) (hU : good U)
    (hc : B.length + (newEntries B U).length < 4294967296) :
    Fields.update (recBytes B) (recBytes U) = recBytes (B ++ newEntries B U) := by
  have hBlen : B.length < 4294967296 := by omega
  have hne : U.filter (fun f => decide (f.1 ∉ List.map Prod.fst B)) = newEntries B U := rfl
  have hfold := update_fold (List.map Prod.fst B) U (recBytes B) B.length
    (by rw [hne]; omega)
  rw [Fields.update, decodeRecord_recBytes U hU, decodeRecord_recBytes B hB,
    size_recBytes B hBlen]
  show setCount (U.foldl _ (recBytes B, B.length)).2 (U.foldl _ (recBytes B, B.length)).1 = _
  rw [hfold, hne, setCount, recBytes, List.append_assoc, drop4_le32, recBytes]
  rw [show (B ++ newEntries B U).length = B.length + (newEntries B U).length by simp]
  rw [entriesBytes_append]

theorem good_append (xs ys : List F) (hx : good xs) (hy : good ys) :
    good (xs ++ ys) := by
  intro f hf
  rcases List.mem_append.mp hf with h | h
  · exact hx f h
  · exact hy f h

theorem good_filter (fs : List F) (p : F → Bool) (h : good fs) :
    good (fs.filter p) :=
  fun f hf => h f (List.mem_of_mem_filter hf)

theorem decode_update (B U : List F) (hB : good B) (hU : good U)
    (hc : B.length + (newEntries B U).length < 4294967296) :
    decodeRecord (Fields.update (recBytes B) (recBytes U)) = B ++ newEntries B U := by
  rw [update_char B U hB hU hc]
  exact decodeRecord_recBytes _
    (good_append _ _ hB (good_filter _ _ hU))

theorem filter_fold (W : List (List Nat)) (L : List F) :
    ∀ acc, L.foldl
        (fun d f => if f.1 ∈ W then Fields.push d f.1 f.2 else d)
        (recBytes acc)
      = recBytes (acc ++ L.filter (fun f => decide (f.1 ∈ W))) := by
  induction L with
  | nil => intro acc; simp
  | cons f tl ih =>
    intro acc
    by_cases hf : f.1 ∈ W
    · rw [List.foldl_cons, if_pos hf, push_recBytes, ih (acc ++ [f])]
      simp [List.filter_cons, hf]
    · rw [List.foldl_cons, if_neg hf, ih acc]
      simp [List.filter_cons, hf]

theorem filter_char (V : List F) (W : List (List Nat)) :
    ReadonlyFields.filter (buildFields V) W =
      recBytes ((decodeRecord (buildFields V)).filter (fun f => decide (f.1 ∈ W))) := by
  rw [ReadonlyFields.filter]
  by_cases hW : W = []
  · subst hW
    simp [emptyBuffer_eq]
  · rw [if_neg hW]
    have := filter_fold W (decodeRecord (buildFields V)) []
    simpa [emptyBuffer_eq] using this

theorem ser1_assoc (n v rest : List Nat) :
    ser1 (n, v) ++ rest = le32 n.length ++ (n ++ (le32 v.length ++ (v ++ rest))) := by
  simp [ser1, List.append_assoc]

theorem read4Chk_le32 (m : Nat) (rest : List Nat) :
    read4Chk (le32 m ++ rest) = some (m % 4294967296) := by
  rw [read4Chk, if_pos, read4_le32]
  simp

theorem takeChk_left (l₁ l₂ : List Nat) : takeChk (l₁ ++ l₂) l₁.length = some l₁ := by
  rw [takeChk, if_pos, List.take_left]
  simp

theorem deserializeRowLoop_cons (k : Nat) (n v rest : List Nat)
    (hn : n.length < 4294967296) (hv : v.length < 4294967296) :
    deserializeRowLoop (k + 1) (ser1 (n, v) ++ rest) =
      match deserializeRowLoop k rest with
      | .error e => .error e
      | .ok r => .ok ((n, v) :: r) := by
  rw [ser1_assoc]
  have h1 : read4Chk (le32 n.length ++ (n ++ (le32 v.length ++ (v ++ rest)))) =
      some n.length := by
    rw [read4Chk_le32, Nat.mod_eq_of_lt hn]
  have hd1 : (le32 n.length ++ (n ++ (le32 v.length ++ (v ++ rest)))).drop 4 =
      n ++ (le32 v.length ++ (v ++ rest)) := drop4_le32 _ _
  have h2 : takeChk ((le32 n.length ++ (n ++ (le32 v.length ++ (v ++ rest)))).drop 4)
      n.length = some n := by
    rw [hd1, takeChk_left]
  have hd2 : ((le32 n.length ++ (n ++ (le32 v.length ++ (v ++ rest)))).drop 4).drop
      n.length = le32 v.length ++ (v ++ rest) := by
    rw [hd1, List.drop_left]
  have h3 : read4Chk (((le32 n.length ++ (n ++ (le32 v.length ++ (v ++ rest)))).drop 4).drop
      n.length) = some v.length := by
    rw [hd2, read4Chk_le32, Nat.mod_eq_of_lt hv]
  have hd3 : ((((le32 n.length ++ (n ++ (le32 v.length ++ (v ++ rest)))).drop 4).drop
      n.length).drop 4) = v ++ rest := by
    rw [hd2, drop4_le32]
  have h4 : takeChk ((((le32 n.length ++ (n ++ (le32 v.length ++ (v ++ rest)))).drop 4).drop
      n.length).drop 4) v.length = some v := by
    rw [hd3, takeChk_left]
  have hd4 : (((((le32 n.length ++ (n ++ (le32 v.length ++ (v ++ rest)))).drop 4).drop
      n.length).drop 4).drop v.length) = rest := by
    rw [hd3, List.drop_left]
  simp only [deserializeRowLoop, h1, h2, h3, h4, hd4]

theorem deserializeRowLoop_ser (V : List F) (hV : good V) :
    deserializeRowLoop V.length (serBytes V) = .ok V := by
  induction V with
  | nil => rfl
  | cons f tl ih =>
    have hf := hV f (List.mem_cons_self _ _)
    have htl : good tl := fun g hg => hV g (List.mem_cons_of_mem _ hg)
    rw [List.length_cons, show serBytes (f :: tl) = ser1 (f.1, f.2) ++ serBytes tl from rfl,
      deserializeRowLoop_cons tl.length f.1 f.2 (serBytes tl) hf.1 hf.2, ih htl]

/-- Round-trip at the level of DeserializeRowImpl: decoding an encoded row
recovers the fields and passes the (vacuous, `expected = 0`) final
assertion. -/
theorem deserializeRow_serializeRow (V : List F) (hV : good V)
    (hlen : V.length < 4294967296) :
    DeserializeRowImpl (SerializeRow V) 0 = .ok (V, true) := by
  rw [DeserializeRowImpl, SerializeRow]
  have h0 : read4Chk (le32 V.length ++ serBytes V) = some V.length := by
    rw [read4Chk_le32, Nat.mod_eq_of_lt hlen]
  simp only [h0, drop4_le32, deserializeRowLoop_ser V hV]
  rfl

theorem deserializeFilterLoop_cons (k : Nat) (n v rest w : List Nat)
    (ws : List (List Nat))
    (hn : n.length < 4294967296) (hv : v.length < 4294967296) :
    deserializeFilterLoop (k + 1) (ser1 (n, v) ++ rest) (w :: ws) =
      if n = w then
        match deserializeFilterLoop k rest ws with
        | .error e => .error e
        | .ok r => .ok ((n, v) :: r)
      else deserializeFilterLoop k rest (w :: ws) := by
  rw [ser1_assoc]
  have h1 : read4Chk (le32 n.length ++ (n ++ (le32 v.length ++ (v ++ rest)))) =
      some n.length := by
    rw [read4Chk_le32, Nat.mod_eq_of_lt hn]
  have hd1 : (le32 n.length ++ (n ++ (le32 v.length ++ (v ++ rest)))).drop 4 =
      n ++ (le32 v.length ++ (v ++ rest)) := drop4_le32 _ _
  have h2 : takeChk ((le32 n.length ++ (n ++ (le32 v.length ++ (v ++ rest)))).drop 4)
      n.length = some n := by
    rw [hd1, takeChk_left]
  have hd2 : ((le32 n.length ++ (n ++ (le32 v.length ++ (v ++ rest)))).drop 4).drop
      n.length = le32 v.length ++ (v ++ rest) := by
    rw [hd1, List.drop_left]
  have h3 : read4Chk (((le32 n.length ++ (n ++ (le32 v.length ++ (v ++ rest)))).drop 4).drop
      n.length) = some v.length := by
    rw [hd2, read4Chk_le32, Nat.mod_eq_of_lt hv]
  have hd3 : ((((le32 n.length ++ (n ++ (le32 v.length ++ (v ++ rest)))).drop 4).drop
      n.length).drop 4) = v ++ rest := by
    rw [hd2, drop4_le32]
  have h4 : takeChk ((((le32 n.length ++ (n ++ (le32 v.length ++ (v ++ rest)))).drop 4).drop
      n.length).drop 4) v.length = some v := by
    rw [hd3, takeChk_left]
  have hd4 : (((((le32 n.length ++ (n ++ (le32 v.length ++ (v ++ rest)))).drop 4).drop
      n.length).drop 4).drop v.length) = rest := by
    rw [hd3, List.drop_left]
  simp only [deserializeFilterLoop, h1, h2, h3, h4, hd4]

theorem deserializeFilterLoop_ser (V : List F) (hV : good V) :
    ∀ W, deserializeFilterLoop V.length (serBytes V) W = .ok (spMatch V W) := by
  induction V with
  | nil =>
    intro W
    cases W <;> rfl
  | cons f tl ih =>
    intro W
    have hf := hV f (List.mem_cons_self _ _)
    have htl : good tl := fun g hg => hV g (List.mem_cons_of_mem _ hg)
    cases W with
    | nil => rfl
    | cons w ws =>
      rw [List.length_cons,
        show serBytes (f :: tl) = ser1 (f.1, f.2) ++ serBytes tl from rfl,
        deserializeFilterLoop_cons tl.length f.1 f.2 (serBytes tl) w ws hf.1 hf.2]
      by_cases hfw : f.1 = w
      · rw [if_pos hfw, ih htl ws]
        simp only [spMatch]
        rw [if_pos hfw]
      · rw [if_neg hfw, ih htl (w :: ws)]
        simp only [spMatch]
        rw [if_neg hfw]

theorem spMatch_length_le (V : List F) : ∀ W, (spMatch V W).length ≤ W.length := by
  induction V with
  | nil => intro W; cases W <;> simp [spMatch]
  | cons f tl ih =>
    intro W
    cases W with
    | nil => simp [spMatch]
    | cons w ws =>
      rw [spMatch]
      by_cases hfw : f.1 = w
      · rw [if_pos hfw]
        have := ih ws
        simp only [List.length_cons]
        omega
      · rw [if_neg hfw]
        have := ih (w :: ws)
        simp only [List.length_cons] at this ⊢
        omega

theorem spMatch_length_lt (V : List F) :
    ∀ W w, w ∈ W → w ∉ V.map Prod.fst → (spMatch V W).length < W.length := by
  induction V with
  | nil =>
    intro W w hw _
    cases W with
    | nil => simp at hw
    | cons a ws => simp [spMatch]
  | cons f tl ih =>
    intro W w hw hnm
    have hwf : w ≠ f.1 := by
      intro h
      exact hnm (by rw [h]; exact List.mem_map_of_mem Prod.fst (List.mem_cons_self _ _))
    have hnmtl : w ∉ tl.map Prod.fst := by
      intro h
      exact hnm (by simp only [List.map_cons]; exact List.mem_cons_of_mem _ h)
    cases W with
    | nil => simp at hw
    | cons a ws =>
      rw [spMatch]
      by_cases hfa : f.1 = a
      · rw [if_pos hfa]
        have hwws : w ∈ ws := by
          rcases List.mem_cons.mp hw with h | h
          · exact absurd (h.trans hfa.symm) hwf
          · exact h
        have := ih ws w hwws hnmtl
        simp only [List.length_cons]
        omega
      · rw [if_neg hfa]
        have := ih (a :: ws) w hw hnmtl
        simp only [List.length_cons] at this ⊢
        omega

/-- Full characterization of DeserializeRowFilter on a well-formed encoded
row: the decoded fields are the single-pass matches, and the reported final
assertion compares their number with the request count. -/
theorem deserializeRowFilter_serializeRow (V : List F) (W : List (List Nat))
    (hV : good V) (hlen : V.length < 4294967296) :
    DeserializeRowFilterImpl (SerializeRow V) W =
      .ok (spMatch V W, (spMatch V W).length == W.length) := by
  rw [DeserializeRowFilterImpl, SerializeRow]
  have h0 : read4Chk (le32 V.length ++ serBytes V) = some V.length := by
    rw [read4Chk_le32, Nat.mod_eq_of_lt hlen]
  simp only [h0, drop4_le32, deserializeFilterLoop_ser V hV W]

theorem applyOps_from :
    ∀ (ops : List FieldsOp) (fs : List F),
      ops.foldl applyOp (recBytes fs) = recBytes (opsRecordFrom fs ops) := by
  intro ops
  induction ops with
  | nil => intro fs; rfl
  | cons op tl ih =>
    intro fs
    cases op with
    | push n v =>
      rw [List.foldl_cons]
      show List.foldl applyOp (Fields.push (recBytes fs) n v) tl = _
      rw [push_recBytes]
      exact ih (fs ++ [(n, v)])
    | clear =>
      rw [List.foldl_cons]
      show List.foldl applyOp (Fields.clear (recBytes fs)) tl = _
      rw [clear_eq, emptyBuffer_eq]
      exact ih []

theorem applyOps_eq (ops : List FieldsOp) :
    applyOps ops = recBytes (opsRecord ops) := by
  rw [applyOps, opsRecord, show Fields.emptyBuffer = recBytes [] from rfl]
  exact applyOps_from ops []

theorem opsRecordFrom_length :
    ∀ (ops : List FieldsOp) (fs : List F),
      (opsRecordFrom fs ops).length ≤ fs.length + ops.length := by
  intro ops
  induction ops with
  | nil => intro fs; simp [opsRecordFrom]
  | cons op tl ih =>
    intro fs
    cases op with
    | push n v =>
      rw [opsRecordFrom]
      have := ih (fs ++ [(n, v)])
      simp only [List.length_append, List.length_cons, List.length_nil] at this ⊢
      omega
    | clear =>
      rw [opsRecordFrom]
      have := ih []
      simp only [List.length_nil, List.length_cons] at this ⊢
      omega

theorem opsRecordFrom_good :
    ∀ (ops : List FieldsOp) (fs : List F), (∀ op ∈ ops, goodOp op) → good fs →
      good (opsRecordFrom fs ops) := by
  intro ops
  induction ops with
  | nil => intro fs _ hfs; exact hfs
  | cons op tl ih =>
    intro fs hops hfs
    have htl : ∀ op ∈ tl, goodOp op := fun o ho => hops o (List.mem_cons_of_mem _ ho)
    cases op with
    | push n v =>
      rw [opsRecordFrom]
      refine ih (fs ++ [(n, v)]) htl (good_append _ _ hfs ?_)
      intro g hg
      rw [List.mem_singleton.mp hg]
      exact hops (.push n v) (List.mem_cons_self _ _)
    | clear =>
      rw [opsRecordFrom]
      exact ih [] htl (fun g hg => absurd hg (List.not_mem_nil g))

/-- First-match lookup in an association list stays within the first block
when the key occurs there. -/
theorem lookup_append_of_mem (a : List Nat) :
    ∀ (l₁ l₂ : List F), a ∈ l₁.map Prod.fst →
      List.lookup a (l₁ ++ l₂) = List.lookup a l₁ := by
  intro l₁
  induction l₁ with
  | nil => intro l₂ h; simp at h
  | cons f tl ih =>
    intro l₂ h
    by_cases hfa : f.1 = a
    · obtain ⟨n, v⟩ := f
      simp only [List.cons_append, List.lookup]
      rw [show (a == n) = true from beq_iff_eq.mpr hfa.symm]
    · obtain ⟨n, v⟩ := f
      have ha : a ∈ tl.map Prod.fst := by
        simp only [List.map_cons, List.mem_cons] at h
        rcases h with h | h
        · exact absurd h.symm hfa
        · exact h
      simp only [List.cons_append, List.lookup]
      rw [show (a == n) = false from beq_eq_false_iff_ne.mpr (fun hh => hfa hh.symm)]
      exact ih l₂ ha

/-!
Claim theorems.
-/

/-- C1: evaluation of Fields::update at the exact scenario of the
repository test test_update (src/tests/test_fields.cc): base record
{field0: value0, field1: value1, field2: value2}, update record
{field1: updated1, field3: value3}.  The merged record keeps the base
value value1 for field1 — the update entry whose name already exists is
skipped entirely, so its value updated1 is dropped — while the field count
is 4 as the claim states.  The test and the spec both require the merged
value updated1 for field1, so the code contradicts its own test here: the
value part of the claim is right and the code is wrong. -/
theorem C1_update_keeps_base_value :
    decodeRecord (Fields.update
      (buildFields [([102,105,101,108,100,48], [118,97,108,117,101,48]),
        ([102,105,101,108,100,49], [118,97,108,117,101,49]),
        ([102,105,101,108,100,50], [118,97,108,117,101,50])])
      (buildFields [([102,105,101,108,100,49], [117,112,100,97,116,101,100,49]),
        ([102,105,101,108,100,51], [118,97,108,117,101,51])])) =
      [([102,105,101,108,100,48], [118,97,108,117,101,48]),
       ([102,105,101,108,100,49], [118,97,108,117,101,49]),
       ([102,105,101,108,100,50], [118,97,108,117,101,50]),
       ([102,105,101,108,100,51], [118,97,108,117,101,51])] ∧
    ([118,97,108,117,101,49] : List Nat) ≠ [117,112,100,97,116,101,100,49] ∧
    MergeUpdate [([97], [49])] [([97], [50])] = ([([97], [50])], true) := by
  refine ⟨by decide, by decide, rfl⟩

/-- C2: behaviour of the code on a buffer whose header declares two fields
while only one full entry fits.  Serialization::DeserializeRowImpl runs
into a read past the end of the buffer when it starts the second entry (in
a debug build the `assert(p < lim)` aborts, in a release build the read is
out of bounds) — there is no graceful MalformedEncoding rejection, that
error does not exist in the code.  The fields.h iterator on the analogous
record buffer silently yields the single present entry with no error while
size() still reports the declared count 2. -/
theorem C2_truncated_declared_count :
    DeserializeRowImpl (le32 2 ++ (le32 1 ++ ([97] ++ (le32 1 ++ [98])))) 0 =
      .error .oobRead ∧
    ReadonlyFields.size (le32 2 ++ entryBytes ([97], [98])) = 2 ∧
    decodeRecord (le32 2 ++ entryBytes ([97], [98])) = [([97], [98])] := by
  refine ⟨rfl, by decide, by decide⟩

/-- C3 counterexample: requesting the absent name x from the encoded record
{a: 1} through Serialization::DeserializeRowFilter completes the scan with
an empty result, but the final debug assertion
`values.size() == fields.size()` is then violated (the reported Bool is
false): the absence of a requested field is treated as an error by that
assertion, refuting the claim for this code path. -/
theorem C3_counterexample :
    ([120] ∉ ([([97], [49])] : List F).map Prod.fst) ∧
    DeserializeRowFilterImpl (SerializeRow [([97], [49])]) [[120]] =
      .ok ([], false) := by
  refine ⟨by decide, rfl⟩

/-- C3 amended: for ReadonlyFields::filter a requested name that occurs
nowhere in the record is simply ignored — erasing it from the wanted set
does not change the produced buffer at all, and the projection always
completes.  For Serialization::DeserializeRowFilter the scan likewise emits
only the fields that were found, but the function then asserts that the
number of produced fields equals the number of requested fields, so a
request containing an absent name fails that final assertion (the reported
Bool is false). -/
theorem C3_absent_requested_names (V : List F) (W : List (List Nat))
    (w : List Nat) (hV : good V) (hw : w ∉ V.map Prod.fst) :
    ReadonlyFields.filter (buildFields V) W =
      ReadonlyFields.filter (buildFields V) (W.erase w) ∧
    (V.length < 4294967296 → w ∈ W →
      DeserializeRowFilterImpl (SerializeRow V) W = .ok (spMatch V W, false)) := by
  constructor
  · rw [filter_char, filter_char, buildFields_eq, decodeRecord_recBytes V hV]
    have hfil : V.filter (fun f => decide (f.1 ∈ W)) =
        V.filter (fun f => decide (f.1 ∈ W.erase w)) := by
      apply List.filter_congr
      intro f hf
      have hne : f.1 ≠ w := by
        intro h
        exact hw (h ▸ List.mem_map_of_mem Prod.fst hf)
      simp only [decide_eq_decide]
      exact (List.mem_erase_of_ne hne).symm
    rw [hfil]
  · intro hlen hwW
    rw [deserializeRowFilter_serializeRow V W hV hlen]
    have hlt := spMatch_length_lt V W w hwW hw
    rw [show ((spMatch V W).length == W.length) = false from
      beq_eq_false_iff_ne.mpr (Nat.ne_of_lt hlt)]

/-- C3 witness: instance of the amended claim at the record {a: 1} with the
request {x, a}, x absent. -/
theorem C3_witness :
    ReadonlyFields.filter (buildFields [([97], [49])]) [[120], [97]] =
      ReadonlyFields.filter (buildFields [([97], [49])]) ([[120], [97]].erase [120]) ∧
    DeserializeRowFilterImpl (SerializeRow [([97], [49])]) [[120], [97]] =
      .ok (spMatch [([97], [49])] [[120], [97]], false) := by
  have h := C3_absent_requested_names [([97], [49])] [[120], [97]] [120]
    (by decide) (by decide)
  exact ⟨h.1, h.2 (by decide) (by decide)⟩

/-- C4: round-trip of the serialization.h row codec — deserializing the
buffer produced by serializing any finite sequence of fields with pairwise
distinct names (each byte string shorter than 2^32, fewer than 2^32
fields, as the uint32 length prefixes require) yields exactly the same
fields in the same order, with the final count assertion passing. -/
theorem C4_roundtrip (V : List F) (hV : good V)
    (hlen : V.length < 4294967296)
    (hnames : V.Pairwise (fun a b => a.1 ≠ b.1)) :
    DeserializeRowImpl (SerializeRow V) 0 = .ok (V, true) :=
  deserializeRow_serializeRow V hV hlen

/-- C4 witness: round trip at the two-field record {a: 1, b: 2}. -/
theorem C4_witness :
    DeserializeRowImpl (SerializeRow [([97], [49]), ([98], [50])]) 0 =
      .ok ([([97], [49]), ([98], [50])], true) :=
  C4_roundtrip [([97], [49]), ([98], [50])] (by decide) (by decide) (by decide)

/-- C5: Fields::update is idempotent — merging the same update record twice
produces byte-for-byte the same encoded buffer as merging it once, for
every base and update record (with uint32-representable sizes). -/
theorem C5_idempotent (B U : List F) (hB : good B) (hU : good U)
    (hc : B.length + U.length < 4294967296) :
    Fields.update (Fields.update (buildFields B) (buildFields U)) (buildFields U) =
      Fields.update (buildFields B) (buildFields U) := by
  have hnew : good (newEntries B U) := good_filter _ _ hU
  have hlen_new : (newEntries B U).length ≤ U.length := List.length_filter_le _ _
  have hc1 : B.length + (newEntries B U).length < 4294967296 := by omega
  have hBU : good (B ++ newEntries B U) := good_append _ _ hB hnew
  have hfil : newEntries (B ++ newEntries B U) U = [] := by
    rw [newEntries]
    apply List.filter_eq_nil_iff.mpr
    intro f hf
    simp only [decide_eq_true_eq, Decidable.not_not]
    rw [namesOf, List.map_append]
    by_cases hb : f.1 ∈ B.map Prod.fst
    · exact List.mem_append.mpr (Or.inl hb)
    · refine List.mem_append.mpr (Or.inr ?_)
      have hfnew : f ∈ newEntries B U :=
        List.mem_filter.mpr ⟨hf, by simp [namesOf, hb]⟩
      exact List.mem_map_of_mem Prod.fst hfnew
  have hc2 : (B ++ newEntries B U).length +
      (newEntries (B ++ newEntries B U) U).length < 4294967296 := by
    rw [hfil]
    simp only [List.length_append, List.length_nil]
    omega
  rw [buildFields_eq, buildFields_eq, update_char B U hB hU hc1,
    update_char (B ++ newEntries B U) U hBU hU hc2, hfil, List.append_nil]

/-- C5 witness: idempotence at the base {a: 1} and the update
{a: 2, b: 3}. -/
theorem C5_witness :
    Fields.update
        (Fields.update (buildFields [([97], [49])])
          (buildFields [([97], [50]), ([98], [51])]))
        (buildFields [([97], [50]), ([98], [51])]) =
      Fields.update (buildFields [([97], [49])])
        (buildFields [([97], [50]), ([98], [51])]) :=
  C5_idempotent [([97], [49])] [([97], [50]), ([98], [51])]
    (by decide) (by decide) (by decide)

/-- C6: ReadonlyFields::filter projects a record onto exactly those of its
fields whose names are members of the wanted set, in the original encoding
order and with nothing else; with an empty wanted set it returns the
empty-record buffer, whose field count is zero. -/
theorem C6_filter_correct (V : List F) (W : List (List Nat)) (hV : good V) :
    decodeRecord (ReadonlyFields.filter (buildFields V) W) =
      V.filter (fun f => decide (f.1 ∈ W)) ∧
    ReadonlyFields.filter (buildFields V) [] = Fields.emptyBuffer ∧
    ReadonlyFields.size Fields.emptyBuffer = 0 := by
  refine ⟨?_, rfl, by decide⟩
  rw [filter_char, buildFields_eq, decodeRecord_recBytes V hV]
  exact decodeRecord_recBytes _ (good_filter _ _ hV)

/-- C6 witness: projection of the record {f0: v0, f1: v1, f2: v2} onto the
wanted set {f0, f2} (the concrete scenario of the spec). -/
theorem C6_witness :
    decodeRecord (ReadonlyFields.filter
        (buildFields [([102,48], [118,48]), ([102,49], [118,49]), ([102,50], [118,50])])
        [[102,48], [102,50]]) =
      List.filter (fun f => decide (f.1 ∈ [[102,48], [102,50]]))
        [([102,48], [118,48]), ([102,49], [118,49]), ([102,50], [118,50])] ∧
    ReadonlyFields.filter
        (buildFields [([102,48], [118,48]), ([102,49], [118,49]), ([102,50], [118,50])])
        [] = Fields.emptyBuffer ∧
    ReadonlyFields.size Fields.emptyBuffer = 0 :=
  C6_filter_correct
    [([102,48], [118,48]), ([102,49], [118,49]), ([102,50], [118,50])]
    [[102,48], [102,50]] (by decide)

/-- C7: field order after Fields::update — the merged record is exactly the
base fields, in the base encoding order, followed by exactly those update
fields whose names are absent from the base, in the update encounter
order. -/
theorem C7_merge_order (B U : List F) (hB : good B) (hU : good U)
    (hc : B.length + U.length < 4294967296) :
    decodeRecord (Fields.update (buildFields B) (buildFields U)) =
      B ++ newEntries B U := by
  have hlen_new : (newEntries B U).length ≤ U.length := List.length_filter_le _ _
  have hc1 : B.length + (newEntries B U).length < 4294967296 := by omega
  rw [buildFields_eq, buildFields_eq]
  exact decode_update B U hB hU hc1

/-- C7 witness: merge order at the base {f0: v0, f1: v1} and the update
{f1: u1, f3: v3}. -/
theorem C7_witness :
    decodeRecord (Fields.update
        (buildFields [([102,48], [118,48]), ([102,49], [118,49])])
        (buildFields [([102,49], [117,49]), ([102,51], [118,51])])) =
      [([102,48], [118,48]), ([102,49], [118,49])] ++
        newEntries [([102,48], [118,48]), ([102,49], [118,49])]
          [([102,49], [117,49]), ([102,51], [118,51])] :=
  C7_merge_order [([102,48], [118,48]), ([102,49], [118,49])]
    [([102,49], [117,49]), ([102,51], [118,51])]
    (by decide) (by decide) (by decide)

/-- C8: after any finite sequence of push and clear operations on a fresh
Fields buffer (pushed byte strings of uint32 length, fewer than 2^32
operations), the 4-byte little-endian header equals the number of entries
that follow it, and re-encoding the decoded entries after that header
reproduces the buffer byte for byte — the entries exactly fill it. -/
theorem C8_header_invariant (ops : List FieldsOp)
    (hops : ∀ op ∈ ops, goodOp op) (hlen : ops.length < 4294967296) :
    read4 (applyOps ops) = (decodeRecord (applyOps ops)).length ∧
    applyOps ops = le32 (decodeRecord (applyOps ops)).length ++
      entriesBytes (decodeRecord (applyOps ops)) := by
  have hrec : applyOps ops = recBytes (opsRecord ops) := applyOps_eq ops
  have hgood : good (opsRecord ops) :=
    opsRecordFrom_good ops [] hops (fun g hg => absurd hg (List.not_mem_nil g))
  have hrlen : (opsRecord ops).length < 4294967296 := by
    rw [opsRecord]
    have := opsRecordFrom_length ops []
    simp only [List.length_nil] at this
    omega
  have hdec : decodeRecord (applyOps ops) = opsRecord ops := by
    rw [hrec]
    exact decodeRecord_recBytes _ hgood
  constructor
  · rw [hdec, hrec, read4_recBytes, Nat.mod_eq_of_lt hrlen]
  · rw [hdec, hrec, recBytes]

/-- C8 witness: the invariant at the operation sequence push (a, 1), clear,
push (b, 2), push (c, 3). -/
theorem C8_witness :
    read4 (applyOps [.push [97] [49], .clear, .push [98] [50], .push [99] [51]]) =
      (decodeRecord (applyOps
        [.push [97] [49], .clear, .push [98] [50], .push [99] [51]])).length ∧
    applyOps [.push [97] [49], .clear, .push [98] [50], .push [99] [51]] =
      le32 (decodeRecord (applyOps
        [.push [97] [49], .clear, .push [98] [50], .push [99] [51]])).length ++
      entriesBytes (decodeRecord (applyOps
        [.push [97] [49], .clear, .push [98] [50], .push [99] [51]])) :=
  C8_header_invariant [.push [97] [49], .clear, .push [98] [50], .push [99] [51]]
    (by decide) (by decide)

/-- C9: DeserializeRowFilter performs a single forward pass with the
ordered request list — on any well-formed encoded row the produced fields
are exactly the single-pass matches spMatch, where a field is emitted only
when its name equals the first not-yet-matched requested name; and at the
concrete record {b: 2, a: 1} with the request list [a, b], the field b,
although present in the data and in the request list, is skipped because it
occurs before a is matched, so it is absent from the result. -/
theorem C9_single_pass :
    (∀ (V : List F) (W : List (List Nat)), good V → V.length < 4294967296 →
      DeserializeRowFilterImpl (SerializeRow V) W =
        .ok (spMatch V W, (spMatch V W).length == W.length)) ∧
    DeserializeRowFilterImpl (SerializeRow [([98], [50]), ([97], [49])])
        [[97], [98]] =
      .ok ([([97], [49])], false) := by
  exact ⟨fun V W h1 h2 => deserializeRowFilter_serializeRow V W h1 h2, rfl⟩

/-- C9 witness: the single-pass characterization applied at the record
{a: 1} with the request list [a]. -/
theorem C9_witness :
    DeserializeRowFilterImpl (SerializeRow [([97], [49])]) [[97]] =
      .ok (spMatch [([97], [49])] [[97]],
        (spMatch [([97], [49])] [[97]]).length == [[97]].length) :=
  C9_single_pass.1 [([97], [49])] [[97]] (by decide) (by decide)

/-- C10: frame property of Fields::update — the call writes only the
scratch update buffer of the object: the primary buffer is unchanged
byte for byte (so it still decodes to exactly the fields it held before),
and the returned view is the scratch buffer, not the primary one. -/
theorem C10_update_frame (self : FieldsObj) (upd : List Nat) :
    (FieldsObj.update self upd).1.primary = self.primary ∧
    (FieldsObj.update self upd).2 = (FieldsObj.update self upd).1.scratch ∧
    decodeRecord (FieldsObj.update self upd).1.primary =
      decodeRecord self.primary :=
  ⟨rfl, rfl, rfl⟩

end ycsbc
